import Mathlib

/-!
Verification of the UMM dashboard aggregation pipeline.

This file shallowly embeds the data-handling core of the repository's
backend variants and proves or refutes the specification claims about it:

* umm-dashboard-react/backend/server.js        — CSV in-memory backend
  (parseJSON, extractAreaNames, extractUnitNames, extractCapacityInfo,
  loadData cache coordinator, /api/outages/summary grouping and topAreas);
* umm-dashboard-react/backend/server-sqlite.js — SQLite backend
  (/api/outages/area-events per-area expansion with MW distribution);
* main_prototype server (source embedded in main_prototype/QUICKSTART.md)
  — safeJsonParseArray, extractCapacityMw, buildUmmSummary large-event rows;
* the combined prototype backend (loadCSVData).

Modelling conventions:
* JavaScript numbers are modelled as rationals (ℚ); machine floating point
  is idealised away.  JSON.parse is an external library routine and is
  passed in as an abstract parameter (jsonParse : String → Option Json),
  none standing for a thrown SyntaxError.
* CSV fields are Option String; none models a missing (undefined) column,
  which is falsy in the source's truthiness guards, as is the empty string.
* String routines of JavaScript (split, trim, toLowerCase, toUpperCase,
  includes, default lexicographic sort) are modelled by structural
  functions on the underlying character lists so that concrete inputs
  evaluate inside the kernel.  They agree with the ECMAScript behaviour on
  the basic-multilingual-plane strings the data contains.
* Property access on a JSON null (which would raise a TypeError in JS) is
  modelled as an absent field; no claim exercises that corner.
-/

namespace UMM

/-- Character-list prefix test, model of stepwise string comparison. -/
def hasPrefixCL : List Char → List Char → Bool
  | [], _ => true
  | _ :: _, [] => false
  | a :: as, b :: bs => a == b && hasPrefixCL as bs

/-- Substring containment on character lists; jsIncludes below models
JavaScript String.prototype.includes. -/
def hasSubCL (pat : List Char) : List Char → Bool
  | [] => hasPrefixCL pat []
  | b :: bs => hasPrefixCL pat (b :: bs) || hasSubCL pat bs

/-- Model of JavaScript s.includes(pat). -/
def jsIncludes (s pat : String) : Bool :=
  hasSubCL pat.data s.data

/-- Model of JavaScript s.toLowerCase() (ASCII-adequate). -/
def jsToLower (s : String) : String :=
  ⟨s.data.map Char.toLower⟩

/-- Model of JavaScript s.toUpperCase() (ASCII-adequate). -/
def jsToUpper (s : String) : String :=
  ⟨s.data.map Char.toUpper⟩

/-- Model of JavaScript s.trim(): drop whitespace from both ends. -/
def jsTrim (s : String) : String :=
  ⟨((s.data.dropWhile Char.isWhitespace).reverse.dropWhile Char.isWhitespace).reverse⟩

/-- Split a character list at every occurrence of the separator; model of
JavaScript String.prototype.split with a one-character separator. -/
def splitCL (sep : Char) : List Char → List (List Char)
  | [] => [[]]
  | c :: rest =>
    let r := splitCL sep rest
    if c = sep then [] :: r
    else
      match r with
      | [] => [[c]]
      | g :: gs => (c :: g) :: gs

/-- Model of JavaScript s.split(","). -/
def jsSplitComma (s : String) : List String :=
  (splitCL ',' s.data).map (fun l => ⟨l⟩)

/-- First-occurrence de-duplication with an accumulator of already seen
values; model of filling a JavaScript Set and reading it back in insertion
order. -/
def dedupAux (seen : List String) : List String → List String
  | [] => []
  | x :: xs => if x ∈ seen then dedupAux seen xs else x :: dedupAux (x :: seen) xs

/-- De-duplicate keeping the first occurrence of each value, in order. -/
def dedupFirst (l : List String) : List String :=
  dedupAux [] l

/-- Stable insertion: x is placed before the first element that does not
have to come strictly before it.  bf y x = true means the comparator puts
y strictly before x. -/
def insertBy (bf : α → α → Bool) (x : α) : List α → List α
  | [] => [x]
  | y :: ys => if bf y x then y :: insertBy bf x ys else x :: y :: ys

/-- Stable sort by a strictly-before comparator; model of the (stable,
per ECMA-262) Array.prototype.sort with comparator bf. -/
def stableSortBy (bf : α → α → Bool) : List α → List α
  | [] => []
  | x :: xs => insertBy bf x (stableSortBy bf xs)

/-- Lexicographic strict comparison of character lists, the order behind
the default JavaScript string sort. -/
def ltCL : List Char → List Char → Bool
  | [], [] => false
  | [], _ :: _ => true
  | _ :: _, [] => false
  | a :: as, b :: bs => if a < b then true else if b < a then false else ltCL as bs

/-- Strict string comparison (a comes before b), model of the default
comparator of Array.prototype.sort on strings. -/
def strLtB (a b : String) : Bool :=
  ltCL a.data b.data

/-- Model of the default JavaScript string sort (ascending lexicographic
comparison of code units). -/
def sortStringsAsc (l : List String) : List String :=
  stableSortBy strLtB l

/-- JSON values, the possible results of JSON.parse. -/
inductive Json where
  | null
  | bool (b : Bool)
  | num (q : ℚ)
  | str (s : String)
  | arr (elems : List Json)
  | obj (fields : List (String × Json))

/-- JavaScript truthiness of a JSON value. -/
def Json.truthy : Json → Bool
  | .null => false
  | .bool b => b
  | .num q => decide (q ≠ 0)
  | .str s => decide (s ≠ "")
  | .arr _ => true
  | .obj _ => true

/-- Property access item.key: defined only on objects, absent (undefined)
otherwise.  Access on Json.null, a TypeError in JavaScript, is modelled as
absent; no claim depends on it. -/
def Json.getField : Json → String → Option Json
  | .obj fields, key => (fields.find? (fun p => p.1 == key)).map (fun p => p.2)
  | _, _ => none

/-- JavaScript numeric coercion with a || 0 fallback, as used by the
capacity accumulations: numbers pass through, booleans coerce to 0/1,
everything else (null, strings, arrays, objects) is modelled as 0.
(JS would coerce numeric strings to their value; the data never stores
capacities as strings and no claim exercises that.) -/
def jsNumOr0 : Json → ℚ
  | .num q => q
  | .bool b => if b then 1 else 0
  | _ => 0

/-- Like jsNumOr0 but for an optional (possibly absent) field. -/
def fieldNumOr0 (o : Option Json) : ℚ :=
  match o with
  | some j => jsNumOr0 j
  | none => 0

/-- parseJSON from umm-dashboard-react/backend/server.js (lines 23-31;
identical in server-sqlite.js lines 33-42): falsy, the literal string
"null" or the empty string give []; a parse failure gives []; a parsed
array is returned as is; any other parsed value is wrapped in a
one-element list. -/
def parseJSON (jsonParse : String → Option Json) : Option String → List Json
  | none => []
  | some v =>
    if v = "" ∨ v = "null" then []
    else
      match jsonParse v with
      | none => []
      | some (.arr xs) => xs
      | some j => [j]

/-- safeJsonParseArray from the main_prototype server (embedded in
main_prototype/QUICKSTART.md): non-strings and blank strings give [],
the input is trimmed before parsing, a parsed array is returned as is, a
parsed object is wrapped, and every other parse result (scalars, null) or
a parse failure gives []. -/
def safeJsonParseArray (jsonParse : String → Option Json) : Option String → List Json
  | none => []
  | some v =>
    let t := jsTrim v
    if t = "" then []
    else
      match jsonParse t with
      | none => []
      | some (.arr xs) => xs
      | some (.obj fields) => [Json.obj fields]
      | some _ => []

/-- A raw CSV row of umm_messages1.csv as seen by server.js.  Only the
columns the modelled functions read are kept.  unavailability_type holds
the parseFloat of the raw column when the column is truthy and numeric;
none models a missing, empty or non-numeric column, all of which fail both
sentinel comparisons in the source. -/
structure Row where
  areas_json : Option String
  production_units_json : Option String
  generation_units_json : Option String
  transmission_units_json : Option String
  publication_date : String
  message_type : String
  unavailability_type : Option ℚ
  remarks : Option String

/-- Candidate area names of a row, in the fixed collection order of
extractAreaNames (server.js lines 34-59): areas_json item.name, then
production_units_json item.areaName, then generation_units_json
item.areaName, then transmission_units_json item.inAreaName and
item.outAreaName.  A candidate is kept verbatim when the field holds a
truthy string (the empty string is falsy and discarded). -/
def areaCandidates (jsonParse : String → Option Json) (row : Row) : List String :=
  (parseJSON jsonParse row.areas_json).filterMap (fun item =>
    match item.getField "name" with
    | some (.str s) => if s = "" then none else some s
    | _ => none)
  ++ (parseJSON jsonParse row.production_units_json).filterMap (fun item =>
    match item.getField "areaName" with
    | some (.str s) => if s = "" then none else some s
    | _ => none)
  ++ (parseJSON jsonParse row.generation_units_json).filterMap (fun item =>
    match item.getField "areaName" with
    | some (.str s) => if s = "" then none else some s
    | _ => none)
  ++ (parseJSON jsonParse row.transmission_units_json).flatMap (fun item =>
    (match item.getField "inAreaName" with
     | some (.str s) => if s = "" then [] else [s]
     | _ => [])
    ++ (match item.getField "outAreaName" with
     | some (.str s) => if s = "" then [] else [s]
     | _ => []))

/-- extractAreaNames from server.js lines 34-59: a Set is filled with the
candidates in collection order and read back with Array.from(...).sort(),
so the result is the first-occurrence de-duplication of the candidates
sorted ascending.  No case normalization and no trimming is applied. -/
def extractAreaNames (jsonParse : String → Option Json) (row : Row) : List String :=
  sortStringsAsc (dedupFirst (areaCandidates jsonParse row))

/-- Modelled from the spec (claims C4 wording, spec section 4.1 steps 1-2):
area extraction that uppercases and trims every candidate, discards
empties, and returns the de-duplicated candidates in collection order.
Used only to compare the claimed behaviour with extractAreaNames. -/
def claimExtractAreaNames (jsonParse : String → Option Json) (row : Row) : List String :=
  dedupFirst (((areaCandidates jsonParse row).map (fun s => jsToUpper (jsTrim s))).filter
    (fun s => s ≠ ""))

/-- Fallback tail of the unit-name chain: productionUnitName, then
generationUnitName, string fields only, falling through on falsy values. -/
def unitNameAlt (item : Json) : Option String :=
  match item.getField "productionUnitName" with
  | some (.str s) =>
    if s = "" then
      match item.getField "generationUnitName" with
      | some (.str t) => if t = "" then none else some t
      | _ => none
    else some s
  | _ =>
    match item.getField "generationUnitName" with
    | some (.str t) => if t = "" then none else some t
    | _ => none

/-- The name || productionUnitName || generationUnitName fallback chain of
extractUnitNames, string fields only, falling through on falsy values. -/
def unitNameOf (item : Json) : Option String :=
  match item.getField "name" with
  | some (.str s) => if s = "" then unitNameAlt item else some s
  | _ => unitNameAlt item

/-- extractUnitNames from server.js lines 62-69: collect the truthy unit
names into a Set and return Array.from(set).sort(). -/
def extractUnitNames (jsonParse : String → Option Json) (v : Option String) : List String :=
  sortStringsAsc (dedupFirst ((parseJSON jsonParse v).filterMap unitNameOf))

/-- The three running capacity totals of extractCapacityInfo. -/
structure CapacityTotals where
  installed : ℚ
  unavailable : ℚ
  available : ℚ

/-- One loop iteration of extractCapacityInfo (server.js lines 86-103):
add installedCapacity || 0, and when timePeriods is truthy and its first
element is truthy, add that first period's unavailableCapacity || 0 and
availableCapacity || 0.  Later time periods are never read. -/
def capacityStep (acc : CapacityTotals) (unit : Json) : CapacityTotals :=
  let acc := { acc with installed := acc.installed + fieldNumOr0 (unit.getField "installedCapacity") }
  match unit.getField "timePeriods" with
  | some tp =>
    if tp.truthy then
      match tp with
      | .arr (p0 :: _) =>
        if p0.truthy then
          { acc with
            unavailable := acc.unavailable + fieldNumOr0 (p0.getField "unavailableCapacity"),
            available := acc.available + fieldNumOr0 (p0.getField "availableCapacity") }
        else acc
      | _ => acc
    else acc
  | none => acc

/-- The returned record of extractCapacityInfo (server.js lines 105-110):
each total is published only when strictly positive, otherwise null.
The fuelType string (unused by every claim) is not modelled. -/
structure CapacityInfo where
  installedMW : Option ℚ
  unavailableMW : Option ℚ
  availableMW : Option ℚ

/-- extractCapacityInfo from server.js lines 72-111: fold the production
units then the generation units through capacityStep (the source runs two
identical loops; folding the concatenation is the same computation). -/
def extractCapacityInfo (jsonParse : String → Option Json) (row : Row) : CapacityInfo :=
  let units := parseJSON jsonParse row.production_units_json
    ++ parseJSON jsonParse row.generation_units_json
  let t := units.foldl capacityStep ⟨0, 0, 0⟩
  { installedMW := if t.installed > 0 then some t.installed else none,
    unavailableMW := if t.unavailable > 0 then some t.unavailable else none,
    availableMW := if t.available > 0 then some t.available else none }

/-- Rounding to one decimal place as Number(total.toFixed(1)): ties go to
the larger value, matching Mathlib round. -/
def round1 (q : ℚ) : ℚ :=
  (round (q * 10) : ℚ) / 10

/-- A raw record of the main_prototype server (fields read by
extractCapacityMw and its claimed variant). -/
structure ProtoRow where
  production_units_json : Option String
  generation_units_json : Option String

/-- The contribution of one time period in extractCapacityMw: skip a null
or absent unavailableCapacity, otherwise add Number(value) || 0. -/
def periodAdd (period : Json) : ℚ :=
  match period.getField "unavailableCapacity" with
  | none => 0
  | some .null => 0
  | some j => jsNumOr0 j

/-- The inner loop body of extractCapacityMw: when the unit's timePeriods
is an array, accumulate every period's contribution, otherwise leave the
total unchanged. -/
def capStep (acc : ℚ) (unit : Json) : ℚ :=
  match unit.getField "timePeriods" with
  | some (.arr periods) => periods.foldl (fun a p => a + periodAdd p) acc
  | _ => acc

/-- extractCapacityMw from the main_prototype server (embedded in
main_prototype/QUICKSTART.md): for every unit of production_units_json,
when timePeriods is an array, add every period's contribution; finally
round to one decimal.  Generation units are never consulted. -/
def extractCapacityMw (jsonParse : String → Option Json) (row : ProtoRow) : ℚ :=
  let units := safeJsonParseArray jsonParse row.production_units_json
  round1 (units.foldl capStep 0)

/-- Modelled from the spec (claim C3 wording, spec section 4.1): capacity
as the rounded sum of unavailableCapacity over all time periods of all
production and generation sub-units.  Used only to compare the claimed
behaviour with extractCapacityMw. -/
def claimCapacityAffectedMw (jsonParse : String → Option Json) (row : ProtoRow) : ℚ :=
  let units := safeJsonParseArray jsonParse row.production_units_json
    ++ safeJsonParseArray jsonParse row.generation_units_json
  round1 ((units.map (fun unit =>
    match unit.getField "timePeriods" with
    | some (.arr periods) => (periods.map periodAdd).sum
    | _ => 0)).sum)

/-- The three classification labels. -/
inductive PlannedStatus where
  | Planned
  | Unplanned
  | Unknown
deriving DecidableEq, Repr

/-- The planned keyword list of the source. -/
def plannedKeywords : List String :=
  ["planned", "maintenance", "scheduled"]

/-- The unplanned keyword list of the source. -/
def unplannedKeywords : List String :=
  ["unplanned", "unexpected", "fault", "failure", "emergency"]

/-- classifyStatus as implemented identically at server.js lines 398-418
(plannedUnplannedBreakdown), server.js lines 614-634 (outage summary) and
the matching places of server-sqlite.js: sentinel 1 gives Planned and
sentinel 2 gives Unplanned regardless of remarks; otherwise the
lower-cased remarks (missing remarks read as the empty string) are tested
against the planned keywords first, then the unplanned keywords, else
Unknown. -/
def classifyStatus (unavailabilityType : Option ℚ) (remarks : Option String) : PlannedStatus :=
  if unavailabilityType = some 1 then .Planned
  else if unavailabilityType = some 2 then .Unplanned
  else
    let r := jsToLower (remarks.getD "")
    if plannedKeywords.any (fun kw => jsIncludes r kw) then .Planned
    else if unplannedKeywords.any (fun kw => jsIncludes r kw) then .Unplanned
    else .Unknown

/-- The normalized in-memory message built by the loadData row handler
(server.js lines 142-156).  The derived duration string and the fuelType
label, which no claim mentions, are not modelled. -/
structure Normalized where
  row : Row
  area_names : List String
  production_unit_names : List String
  generation_unit_names : List String
  capacity : CapacityInfo

/-- Normalization of one CSV row, as performed per-row by the loadData
stream handler; a total function of its input. -/
def normalizeRow (jsonParse : String → Option Json) (row : Row) : Normalized :=
  { row := row,
    area_names := extractAreaNames jsonParse row,
    production_unit_names := extractUnitNames jsonParse row.production_units_json,
    generation_unit_names := extractUnitNames jsonParse row.generation_units_json,
    capacity := extractCapacityInfo jsonParse row }

/-- Normalization of the whole dataset: one Normalized per CSV row. -/
def normalizeDataset (jsonParse : String → Option Json) (rows : List Row) : List Normalized :=
  rows.map (normalizeRow jsonParse)

/-- The module-level cache of server.js (cachedData, cacheTime); none
models the initial cachedData = null state. -/
structure CacheState where
  cached : Option (List Normalized × ℤ)

/-- Cache validity window of server.js (10 minutes in milliseconds). -/
def CACHE_DURATION : ℤ := 10 * 60 * 1000

/-- The outcome of reading and parsing the CSV file, the external effect
behind fs.createReadStream(...).pipe(csv()): ok rows when the stream ends,
error when the stream errors (for example when the file is missing). -/
def FileRead := Except String (List Row)

/-- loadData from server.js lines 127-180: serve the cache when it is
fresh, otherwise attempt the file read; a successful read replaces the
cache and resolves the data, a failed read rejects and leaves the cache
untouched. -/
def loadData (jsonParse : String → Option Json) (now : ℤ) (file : FileRead)
    (st : CacheState) : Except String (List Normalized) × CacheState :=
  let attempt : Except String (List Normalized) × CacheState :=
    match file with
    | .ok rows =>
      let d := normalizeDataset jsonParse rows
      (.ok d, ⟨some (d, now)⟩)
    | .error e => (.error e, st)
  match st.cached with
  | some (d, t) => if now - t < CACHE_DURATION then (.ok d, st) else attempt
  | none => attempt

/-- An HTTP outcome as the route handlers produce it: a JSON payload on
success, or a status-500 error body. -/
inductive ApiResponse (α : Type) where
  | ok (payload : α)
  | serverError (msg : String)
deriving DecidableEq

/-- The try/catch skeleton shared by the API routes of server.js (for
example /api/messages lines 185-240): a rejected loadData is caught and
answered with a 500 error body, never with an empty dataset. -/
def messagesEndpoint (jsonParse : String → Option Json) (now : ℤ) (file : FileRead)
    (st : CacheState) : ApiResponse (List Normalized) × CacheState :=
  match loadData jsonParse now file st with
  | (.ok d, st2) => (.ok d, st2)
  | (.error _, st2) => (.serverError "Failed to load messages", st2)

/-- The availability of the CSV file as seen by the combined-prototype
loader: absent, readable content, or a stream error. -/
inductive FileState (α : Type) where
  | missing
  | content (rows : α)
  | readError (msg : String)

/-- loadCSVData from the combined prototype backend (src/unnamed/part_002
lines 22-63): a missing file is logged and RESOLVED WITH AN EMPTY LIST;
only a stream error rejects.  The per-row transformation is irrelevant to
the claims and is abstracted by the transform parameter. -/
def loadCSVData (transform : List α → List β) : FileState (List α) → Except String (List β)
  | .missing => .ok []
  | .content rows => .ok (transform rows)
  | .readError e => .error e

/-- Association-list lookup by key (first match), the reading half of a
string-keyed JavaScript object. -/
def assocFind (l : List (String × β)) (k : String) : Option β :=
  (l.find? (fun p => p.1 == k)).map (fun p => p.2)

/-- Update-or-append on an association list: the writing half of the
summary[key] pattern.  An existing entry is updated in place with upd, a
missing key is appended at the end holding fresh — exactly the insertion
order of a JavaScript object with string keys. -/
def upsertWith (k : String) (upd : β → β) (fresh : β) : List (String × β) → List (String × β)
  | [] => [(k, fresh)]
  | (k2, v) :: rest =>
    if k2 = k then (k2, upd v) :: rest
    else (k2, v) :: upsertWith k upd fresh rest

/-- One row of the /api/outages/summary result (server.js lines 638-645). -/
structure SummaryRow where
  area : String
  year : ℤ
  messageType : String
  plannedStatus : PlannedStatus
  count : ℕ
deriving DecidableEq

/-- The label the source stores and concatenates for a classification. -/
def statusLabel : PlannedStatus → String
  | .Planned => "Planned"
  | .Unplanned => "Unplanned"
  | .Unknown => "Unknown"

/-- The string-concatenated grouping key of the summary map
(server.js line 637). -/
def encodeKey (area : String) (year : ℤ) (messageType : String) (ps : PlannedStatus) : String :=
  area ++ "|" ++ toString year ++ "|" ++ messageType ++ "|" ++ statusLabel ps

/-- The contribution of one filtered row to the summary map (server.js
lines 610-649): one upsert per extracted area, inserting a fresh group
with count 1 or incrementing the existing count.  getYear abstracts
new Date(publication_date).getFullYear(). -/
def summaryStep (jsonParse : String → Option Json) (getYear : String → ℤ)
    (acc : List (String × SummaryRow)) (row : Row) : List (String × SummaryRow) :=
  let rowAreas := extractAreaNames jsonParse row
  let eventYear := getYear row.publication_date
  let ps := classifyStatus row.unavailability_type row.remarks
  rowAreas.foldl (fun acc area =>
    upsertWith (encodeKey area eventYear row.message_type ps)
      (fun r => { r with count := r.count + 1 })
      { area := area, year := eventYear, messageType := row.message_type,
        plannedStatus := ps, count := 1 } acc) acc

/-- The grouped summary map of /api/outages/summary, built over the
already-filtered rows; Object.values of it is the summary array. -/
def buildSummary (jsonParse : String → Option Json) (getYear : String → ℤ)
    (rows : List Row) : List (String × SummaryRow) :=
  rows.foldl (summaryStep jsonParse getYear) []

/-- The per-area totals of /api/outages/summary (server.js lines 654-660):
areaTotals[item.area] accumulated over the summary array in order. -/
def buildAreaTotals (items : List SummaryRow) : List (String × ℕ) :=
  items.foldl (fun acc item => upsertWith item.area (fun c => c + item.count) item.count acc) []

/-- topAreas of /api/outages/summary (server.js lines 662-665):
Object.entries(areaTotals) sorted descending by total (stable), truncated
to topN, keeping the area names. -/
def topAreas (items : List SummaryRow) (topN : ℕ) : List String :=
  ((stableSortBy (fun a b => decide (b.2 < a.2)) (buildAreaTotals items)).take topN).map
    (fun p => p.1)

/-- A messages row of server-sqlite.js as read for
/api/outages/area-events (the columns the handler uses). -/
structure SRow where
  area_names : Option String
  unavailable_mw : Option ℚ
  unavailability_type : Option String
  publication_date : String
  remarks : Option String

/-- The area list of a sqlite row (server-sqlite.js line 478): a falsy
column gives [], otherwise split on commas, trim, drop empties. -/
def splitAreas (v : Option String) : List String :=
  match v with
  | none => []
  | some s =>
    if s = "" then []
    else ((jsSplitComma s).map jsTrim).filter (fun a => a ≠ "")

/-- The per-event status of /api/outages/area-events
(server-sqlite.js lines 484-486). -/
def eventStatus (ut : Option String) : String :=
  if ut = some "1" then "Planned"
  else if ut = some "2" then "Unplanned"
  else "Unknown"

/-- One expanded per-area outage event (server-sqlite.js lines 488-496). -/
structure AreaEvent where
  area : String
  mw : ℚ
  status : String
  totalMessageMW : ℚ
  affectedAreas : ℕ

/-- The per-area expansion of one sqlite row (server-sqlite.js lines
477-498): the message MW is DIVIDED by the number of listed areas and one
event is pushed per area, carrying the distributed share. -/
def rowEvents (row : SRow) : List AreaEvent :=
  let areaList := splitAreas row.area_names
  let numAreas := if areaList.length = 0 then 1 else areaList.length
  let mwPerArea := (row.unavailable_mw.getD 0) / (numAreas : ℚ)
  areaList.map (fun area =>
    { area := jsTrim area, mw := mwPerArea, status := eventStatus row.unavailability_type,
      totalMessageMW := row.unavailable_mw.getD 0, affectedAreas := numAreas })

/-- The per-area aggregation of /api/outages/area-events
(server-sqlite.js lines 501-508): totalMW accumulates the distributed MW
and count the number of events. -/
def areaStats (events : List AreaEvent) : List (String × (ℚ × ℕ)) :=
  events.foldl (fun acc e =>
    upsertWith e.area (fun s => (s.1 + e.mw, s.2 + 1)) (e.mw, 1) acc) []

/-- Functional view: the summed distributed MW of the events of one area. -/
def totalMWAt (events : List AreaEvent) (a : String) : ℚ :=
  ((events.filter (fun e => e.area = a)).map (fun e => e.mw)).sum

/-- Functional view: the number of events of one area. -/
def countAt (events : List AreaEvent) (a : String) : ℕ :=
  (events.filter (fun e => e.area = a)).length

/-- A hydrated UMM record of the main_prototype server, restricted to the
fields buildUmmSummary reads for the large-event table. -/
structure UmmRecord where
  area : String
  capacityAffectedMw : ℚ

/-- item.area || "UNKNOWN" of the summary loop. -/
def areaOrUnknown (r : UmmRecord) : String :=
  if r.area = "" then "UNKNOWN" else r.area

/-- Whether a record qualifies for the large-event table of the given
area: its capacity meets the fixed 50 MW threshold and it affects the
area. -/
def qualifies (a : String) (r : UmmRecord) : Bool :=
  decide (areaOrUnknown r = a) && decide ((50 : ℚ) ≤ r.capacityAffectedMw)

/-- One iteration of the largeEvents accumulation in buildUmmSummary
(main_prototype server, embedded in main_prototype/QUICKSTART.md): when
cap >= 50, bump the area's event counter and raise its maxCapacityMw if
the new capacity is strictly larger (a fresh entry starts from
events 0 / max 0). -/
def largeStep (acc : List (String × (ℕ × ℚ))) (r : UmmRecord) : List (String × (ℕ × ℚ)) :=
  let cap := r.capacityAffectedMw
  if (50 : ℚ) ≤ cap then
    upsertWith (areaOrUnknown r)
      (fun s => (s.1 + 1, if s.2 < cap then cap else s.2))
      (1, if 0 < cap then cap else 0) acc
  else acc

/-- The largeEvents map of buildUmmSummary in record order. -/
def largeEvents (records : List UmmRecord) : List (String × (ℕ × ℚ)) :=
  records.foldl largeStep []

/-- largeOutages of buildUmmSummary: the large-event rows sorted
descending by maxCapacityMw (stable JavaScript sort). -/
def largeOutages (records : List UmmRecord) : List (String × (ℕ × ℚ)) :=
  stableSortBy (fun a b => decide (b.2.2 < a.2.2)) (largeEvents records)

/-- Functional view: the running maximum the loop computes for one area,
starting from 0. -/
def maxCapOf (records : List UmmRecord) (a : String) : ℚ :=
  (records.filter (qualifies a)).foldl (fun m r =>
    if m < r.capacityAffectedMw then r.capacityAffectedMw else m) 0

section SortLemmas

variable {α : Type} {bf : α → α → Bool}

theorem insertBy_perm (x : α) (l : List α) : (insertBy bf x l).Perm (x :: l) := by
  induction l with
  | nil => simp [insertBy]
  | cons y ys ih =>
    by_cases h : bf y x = true
    · simp only [insertBy, h, if_pos]
      exact ((ih.cons y).trans (List.Perm.swap x y ys))
    · simp only [insertBy, h, if_neg, Bool.not_eq_true]
      simp [h]

theorem stableSortBy_perm (l : List α) : (stableSortBy bf l).Perm l := by
  induction l with
  | nil => simp [stableSortBy]
  | cons x xs ih =>
    exact (insertBy_perm x (stableSortBy bf xs)).trans (ih.cons x)

theorem insertBy_pairwise
    (hasym : ∀ a b, bf a b = true → bf b a = false)
    (hneg : ∀ a b c, bf a b = false → bf b c = false → bf a c = false)
    (x : α) (l : List α) (hl : l.Pairwise (fun a b => bf b a = false)) :
    (insertBy bf x l).Pairwise (fun a b => bf b a = false) := by
  induction l with
  | nil => simp [insertBy]
  | cons y ys ih =>
    rcases List.pairwise_cons.mp hl with ⟨hy, hys⟩
    by_cases h : bf y x = true
    · simp only [insertBy, h, if_true]
      refine List.pairwise_cons.mpr ⟨?_, ih hys⟩
      intro z hz
      have hz2 : z ∈ x :: ys := (insertBy_perm x ys).mem_iff.mp hz
      rcases List.mem_cons.mp hz2 with rfl | hz3
      · exact hasym _ _ h
      · exact hy z hz3
    · simp only [Bool.not_eq_true] at h
      simp only [insertBy, h, if_false]
      refine List.pairwise_cons.mpr ⟨?_, hl⟩
      intro z hz
      rcases List.mem_cons.mp hz with rfl | hz3
      · exact h
      · exact hneg z y x (hy z hz3) h

theorem stableSortBy_pairwise
    (hasym : ∀ a b, bf a b = true → bf b a = false)
    (hneg : ∀ a b c, bf a b = false → bf b c = false → bf a c = false)
    (l : List α) : (stableSortBy bf l).Pairwise (fun a b => bf b a = false) := by
  induction l with
  | nil => simp [stableSortBy]
  | cons x xs ih => exact insertBy_pairwise hasym hneg x _ ih

theorem insertBy_filter_pos (p : α → Bool) (x : α) (l : List α)
    (hcl : ∀ y, p y = true → bf y x = false) (hx : p x = true) :
    (insertBy bf x l).filter p = x :: l.filter p := by
  induction l with
  | nil => simp [insertBy, hx]
  | cons y ys ih =>
    by_cases h : bf y x = true
    · have hpy : p y = false := by
        by_contra hc
        simp only [Bool.not_eq_false] at hc
        exact absurd (hcl y hc) (by simp [h])
      simp only [insertBy, h, if_true, List.filter_cons, hpy, Bool.false_eq_true, if_false]
      exact ih
    · simp only [Bool.not_eq_true] at h
      simp only [insertBy, h, Bool.false_eq_true, if_false]
      simp [List.filter_cons, hx]

theorem insertBy_filter_neg (p : α → Bool) (x : α) (l : List α) (hx : p x = false) :
    (insertBy bf x l).filter p = l.filter p := by
  induction l with
  | nil => simp [insertBy, hx]
  | cons y ys ih =>
    by_cases h : bf y x = true
    · simp only [insertBy, h, if_true, List.filter_cons]
      rw [ih]
    · simp only [Bool.not_eq_true] at h
      simp only [insertBy, h, Bool.false_eq_true, if_false]
      simp [List.filter_cons, hx]

theorem stableSortBy_filter (p : α → Bool)
    (hcl : ∀ a b, p a = true → p b = true → bf a b = false) (l : List α) :
    (stableSortBy bf l).filter p = l.filter p := by
  induction l with
  | nil => simp [stableSortBy]
  | cons x xs ih =>
    by_cases hx : p x = true
    · have he : (insertBy bf x (stableSortBy bf xs)).filter p
          = x :: (stableSortBy bf xs).filter p :=
        insertBy_filter_pos p x _ (fun y hy => hcl y x hy hx) hx
      simp only [stableSortBy, he, ih, List.filter_cons, hx, if_true]
    · simp only [Bool.not_eq_true] at hx
      have he : (insertBy bf x (stableSortBy bf xs)).filter p
          = (stableSortBy bf xs).filter p :=
        insertBy_filter_neg p x _ hx
      simp only [stableSortBy, he, ih, List.filter_cons, hx, Bool.false_eq_true, if_false]

end SortLemmas

section StringOrderLemmas

theorem ltCL_asymm : ∀ a b : List Char, ltCL a b = true → ltCL b a = false
  | [], [] => by simp [ltCL]
  | [], _ :: _ => by simp [ltCL]
  | _ :: _, [] => by simp [ltCL]
  | a :: as, b :: bs => by
    intro h
    rcases lt_trichotomy a b with hab | hab | hab
    · simp [ltCL, asymm hab, hab]
    · subst hab
      simp only [ltCL, lt_irrefl, if_false] at h ⊢
      exact ltCL_asymm as bs h
    · simp [ltCL, asymm hab, hab] at h

theorem ltCL_neg_trans : ∀ a b c : List Char,
    ltCL a b = false → ltCL b c = false → ltCL a c = false
  | [], [], _ => by intro _ h2; exact h2
  | [], _ :: _, _ => by simp [ltCL]
  | _ :: _, [], [] => by intro _ _; simp [ltCL]
  | _ :: _, [], _ :: _ => by simp [ltCL]
  | _ :: _, _ :: _, [] => by intro _ _; simp [ltCL]
  | a :: as, b :: bs, c :: cs => by
    intro h1 h2
    by_cases hab : a < b
    · simp [ltCL, hab] at h1
    · by_cases hbc : b < c
      · simp [ltCL, hbc] at h2
      · by_cases hba : b < a
        · have hca : c < a := lt_of_le_of_lt (le_of_not_lt hbc) hba
          simp [ltCL, hca, asymm hca]
        · have heab : a = b := le_antisymm (le_of_not_lt hba) (le_of_not_lt hab)
          by_cases hcb : c < b
          · have hca : c < a := heab ▸ hcb
            simp [ltCL, hca, asymm hca]
          · have hebc : b = c := le_antisymm (le_of_not_lt hcb) (le_of_not_lt hbc)
            subst heab
            subst hebc
            simp only [ltCL, lt_irrefl, if_false] at h1 h2 ⊢
            exact ltCL_neg_trans as bs cs h1 h2

theorem strLtB_asymm (a b : String) (h : strLtB a b = true) : strLtB b a = false :=
  ltCL_asymm a.data b.data h

theorem strLtB_neg_trans (a b c : String) (h1 : strLtB a b = false)
    (h2 : strLtB b c = false) : strLtB a c = false :=
  ltCL_neg_trans a.data b.data c.data h1 h2

end StringOrderLemmas

section DedupLemmas

theorem mem_dedupAux (a : String) : ∀ (seen l : List String),
    a ∈ dedupAux seen l ↔ a ∈ l ∧ a ∉ seen := by
  intro seen l
  induction l generalizing seen with
  | nil => simp [dedupAux]
  | cons x xs ih =>
    by_cases hx : x ∈ seen
    · simp only [dedupAux, hx, if_pos, ih, List.mem_cons]
      constructor
      · rintro ⟨h1, h2⟩; exact ⟨Or.inr h1, h2⟩
      · rintro ⟨h1 | h1, h2⟩
        · subst h1; exact absurd hx h2
        · exact ⟨h1, h2⟩
    · simp only [dedupAux, hx, if_neg, not_false_iff, List.mem_cons, ih, not_or]
      constructor
      · rintro (h | ⟨h1, h2, h3⟩)
        · exact ⟨Or.inl h, h ▸ hx⟩
        · exact ⟨Or.inr h1, h3⟩
      · rintro ⟨h1 | h1, h2⟩
        · exact Or.inl h1
        · by_cases hax : a = x
          · exact Or.inl hax
          · exact Or.inr ⟨h1, hax, h2⟩

theorem nodup_dedupAux : ∀ (seen l : List String), (dedupAux seen l).Nodup := by
  intro seen l
  induction l generalizing seen with
  | nil => simp [dedupAux]
  | cons x xs ih =>
    by_cases hx : x ∈ seen
    · simpa [dedupAux, hx] using ih seen
    · simp only [dedupAux, hx, if_neg, not_false_iff, List.nodup_cons]
      refine ⟨?_, ih (x :: seen)⟩
      intro hc
      exact ((mem_dedupAux x (x :: seen) xs).mp hc).2 (List.mem_cons_self x seen)

theorem mem_dedupFirst (a : String) (l : List String) : a ∈ dedupFirst l ↔ a ∈ l := by
  simp [dedupFirst, mem_dedupAux]

theorem nodup_dedupFirst (l : List String) : (dedupFirst l).Nodup :=
  nodup_dedupAux [] l

end DedupLemmas

section AssocLemmas

variable {β : Type}

theorem assocFind_nil (k : String) : assocFind ([] : List (String × β)) k = none := rfl

theorem assocFind_cons (k2 k : String) (v : β) (rest : List (String × β)) :
    assocFind ((k2, v) :: rest) k = if k2 = k then some v else assocFind rest k := by
  by_cases h : k2 = k
  · simp [assocFind, List.find?, h]
  · have hbeq : (k2 == k) = false := beq_eq_false_iff_ne.mpr h
    simp [assocFind, List.find?, hbeq, h]

theorem assocFind_upsertWith (k a : String) (upd : β → β) (fresh : β) (l : List (String × β)) :
    assocFind (upsertWith k upd fresh l) a =
      if a = k then
        some (match assocFind l k with | some v => upd v | none => fresh)
      else assocFind l a := by
  induction l with
  | nil =>
    by_cases h : a = k <;>
      simp [upsertWith, assocFind_cons, assocFind_nil, h, Ne.symm]
  | cons p rest ih =>
    obtain ⟨k2, v⟩ := p
    by_cases h2 : k2 = k
    · subst h2
      by_cases h : a = k2 <;>
        simp [upsertWith, assocFind_cons, h, Ne.symm]
    · simp only [upsertWith, h2, if_neg, not_false_iff]
      by_cases h : a = k2
      · subst h
        simp [assocFind_cons, Ne.symm h2, h2]
      · have hk2a : k2 ≠ a := fun hc => h hc.symm
        simp only [assocFind_cons, ih]
        by_cases hak : a = k
        · simp [hak, Ne.symm h2, hk2a, h2]
        · simp [hak, hk2a]

theorem keys_upsertWith (k : String) (upd : β → β) (fresh : β) (l : List (String × β)) :
    (upsertWith k upd fresh l).map Prod.fst =
      if k ∈ l.map Prod.fst then l.map Prod.fst else l.map Prod.fst ++ [k] := by
  induction l with
  | nil => simp [upsertWith]
  | cons p rest ih =>
    obtain ⟨k2, v⟩ := p
    by_cases h2 : k2 = k
    · subst h2
      simp [upsertWith]
    · simp only [upsertWith, h2, if_neg, not_false_iff, List.map_cons, ih]
      by_cases hk : k ∈ rest.map Prod.fst
      · simp [hk, Ne.symm h2]
      · simp [hk, Ne.symm h2]

theorem nodup_keys_upsertWith (k : String) (upd : β → β) (fresh : β) (l : List (String × β))
    (h : (l.map Prod.fst).Nodup) : ((upsertWith k upd fresh l).map Prod.fst).Nodup := by
  rw [keys_upsertWith]
  by_cases hk : k ∈ l.map Prod.fst
  · simpa [hk] using h
  · simp only [hk, if_neg, not_false_iff]
    simpa [List.nodup_append, hk] using h

theorem mem_upsertWith (k : String) (upd : β → β) (fresh : β) (l : List (String × β))
    (p : String × β) (hp : p ∈ upsertWith k upd fresh l) :
    p ∈ l ∨ (∃ v, p = (k, upd v) ∧ (k, v) ∈ l) ∨ p = (k, fresh) := by
  induction l with
  | nil =>
    simp only [upsertWith, List.mem_singleton] at hp
    exact Or.inr (Or.inr hp)
  | cons q rest ih =>
    obtain ⟨k2, v⟩ := q
    by_cases h2 : k2 = k
    · subst h2
      simp only [upsertWith, if_pos, List.mem_cons] at hp
      rcases hp with hp | hp
      · exact Or.inr (Or.inl ⟨v, hp, List.mem_cons_self _ _⟩)
      · exact Or.inl (List.mem_cons_of_mem _ hp)
    · simp only [upsertWith, h2, if_neg, not_false_iff, List.mem_cons] at hp
      rcases hp with hp | hp
      · exact Or.inl (by simp [hp])
      · rcases ih hp with h | ⟨w, hw1, hw2⟩ | h
        · exact Or.inl (List.mem_cons_of_mem _ h)
        · exact Or.inr (Or.inl ⟨w, hw1, List.mem_cons_of_mem _ hw2⟩)
        · exact Or.inr (Or.inr h)

theorem assocFind_eq_some_of_mem (l : List (String × β)) (k : String) (v : β)
    (hnd : (l.map Prod.fst).Nodup) (h : (k, v) ∈ l) : assocFind l k = some v := by
  induction l with
  | nil => simp at h
  | cons p rest ih =>
    obtain ⟨k2, w⟩ := p
    simp only [List.map_cons, List.nodup_cons] at hnd
    rcases List.mem_cons.mp h with h1 | h1
    · simp only [Prod.mk.injEq] at h1
      obtain ⟨rfl, rfl⟩ := h1
      simp [assocFind_cons]
    · have hk : k2 ≠ k := by
        intro hc
        subst hc
        exact hnd.1 (by simpa using List.mem_map_of_mem Prod.fst h1)
      rw [assocFind_cons, if_neg hk]
      exact ih hnd.2 h1

theorem mem_of_assocFind_eq_some (l : List (String × β)) (k : String) (v : β)
    (h : assocFind l k = some v) : (k, v) ∈ l := by
  induction l with
  | nil => simp [assocFind_nil] at h
  | cons p rest ih =>
    obtain ⟨k2, w⟩ := p
    by_cases hk : k2 = k
    · subst hk
      rw [assocFind_cons, if_pos rfl] at h
      simp only [Option.some.injEq] at h
      simp [← h]
    · rw [assocFind_cons, if_neg hk] at h
      exact List.mem_cons_of_mem _ (ih h)

theorem assocFind_isSome_iff (l : List (String × β)) (k : String) :
    (assocFind l k).isSome = true ↔ k ∈ l.map Prod.fst := by
  induction l with
  | nil => simp [assocFind_nil]
  | cons p rest ih =>
    obtain ⟨k2, w⟩ := p
    by_cases hk : k2 = k
    · subst hk
      simp [assocFind_cons]
    · rw [assocFind_cons, if_neg hk]
      have hk2 : k ≠ k2 := fun hc => hk hc.symm
      simp only [List.map_cons, List.mem_cons]
      simp [ih, hk2]

end AssocLemmas

theorem foldl_add_eq {α : Type} (f : α → ℚ) (l : List α) (c : ℚ) :
    l.foldl (fun a x => a + f x) c = c + (l.map f).sum := by
  induction l generalizing c with
  | nil => simp
  | cons x xs ih => simp [ih, add_assoc]

theorem parseJSON_all_none (jsonParse : String → Option Json)
    (h : ∀ s, jsonParse s = none) (o : Option String) : parseJSON jsonParse o = [] := by
  cases o with
  | none => rfl
  | some v =>
    simp only [parseJSON]
    by_cases hv : v = "" ∨ v = "null"
    · simp [hv]
    · simp [hv, h v]

/-- C10: parseJSON is total and always returns a list: undefined input, the
empty string, the literal string "null", and any string on which
JSON.parse throws give the empty list; a string parsing to an array gives
that array unchanged; a string parsing to any other JSON value gives the
one-element list holding it. -/
theorem parseJSON_total_case_analysis (jsonParse : String → Option Json) (v : String)
    (xs : List Json) (j : Json) :
    parseJSON jsonParse none = []
    ∧ parseJSON jsonParse (some "") = []
    ∧ parseJSON jsonParse (some "null") = []
    ∧ (jsonParse v = none → parseJSON jsonParse (some v) = [])
    ∧ (v ≠ "" → v ≠ "null" → jsonParse v = some (Json.arr xs) →
        parseJSON jsonParse (some v) = xs)
    ∧ (v ≠ "" → v ≠ "null" → jsonParse v = some j → (∀ ys, j ≠ Json.arr ys) →
        parseJSON jsonParse (some v) = [j]) := by
  refine ⟨rfl, by simp [parseJSON], by simp [parseJSON], ?_, ?_, ?_⟩
  · intro h
    simp only [parseJSON]
    by_cases hv : v = "" ∨ v = "null"
    · simp [hv]
    · simp [hv, h]
  · intro h1 h2 h3
    simp [parseJSON, h1, h2, h3]
  · intro h1 h2 h3 h4
    have hguard : ¬(v = "" ∨ v = "null") := by simp [h1, h2]
    cases j with
    | arr ys => exact absurd rfl (h4 ys)
    | null => simp [parseJSON, if_neg hguard, h3]
    | bool b => simp [parseJSON, if_neg hguard, h3]
    | num q => simp [parseJSON, if_neg hguard, h3]
    | str s => simp [parseJSON, if_neg hguard, h3]
    | obj fields => simp [parseJSON, if_neg hguard, h3]

/-- A concrete JSON.parse table for the C10 witness. -/
def jsonParseW : String → Option Json := fun s =>
  if s = "A" then some (Json.arr [Json.num 5])
  else if s = "O" then some (Json.obj [])
  else none

/-- Witness for C10 at concrete inputs: an array result is passed through,
a lone object is wrapped, a parse failure gives the empty list. -/
theorem parseJSON_total_case_analysis_witness :
    parseJSON jsonParseW (some "A") = [Json.num 5]
    ∧ parseJSON jsonParseW (some "O") = [Json.obj []]
    ∧ parseJSON jsonParseW (some "bad") = [] := by
  refine ⟨?_, ?_, ?_⟩
  · exact (parseJSON_total_case_analysis jsonParseW "A" [Json.num 5] Json.null).2.2.2.2.1
      (by decide) (by decide) rfl
  · exact (parseJSON_total_case_analysis jsonParseW "O" [] (Json.obj [])).2.2.2.2.2
      (by decide) (by decide) rfl (fun ys h => Json.noConfusion h)
  · exact (parseJSON_total_case_analysis jsonParseW "bad" [] Json.null).2.2.2.1 rfl

/-- C8: a JSON-decode failure on an embedded field yields the empty list
for that field; normalization is total, processes every row (one bad row
or field never aborts the rest), and a row whose every embedded field
fails to decode normalizes to empty lists and absent capacities instead of
raising. -/
theorem normalization_absorbs_decode_failures (jsonParse : String → Option Json)
    (v : String) (rows pre post : List Row) (row : Row) :
    (jsonParse v = none → parseJSON jsonParse (some v) = [])
    ∧ (normalizeDataset jsonParse rows).length = rows.length
    ∧ normalizeDataset jsonParse (pre ++ row :: post)
        = normalizeDataset jsonParse pre
          ++ normalizeRow jsonParse row :: normalizeDataset jsonParse post
    ∧ ((∀ s, jsonParse s = none) →
        (normalizeRow jsonParse row).area_names = []
        ∧ (normalizeRow jsonParse row).production_unit_names = []
        ∧ (normalizeRow jsonParse row).generation_unit_names = []
        ∧ (normalizeRow jsonParse row).capacity = ⟨none, none, none⟩) := by
  refine ⟨?_, by simp [normalizeDataset], by simp [normalizeDataset], ?_⟩
  · intro h
    simp only [parseJSON]
    by_cases hv : v = "" ∨ v = "null"
    · simp [hv]
    · simp [hv, h]
  · intro h
    have hempty : ∀ o, parseJSON jsonParse o = [] := parseJSON_all_none jsonParse h
    refine ⟨?_, ?_, ?_, ?_⟩
    · simp [normalizeRow, extractAreaNames, areaCandidates, hempty, dedupFirst, dedupAux,
        sortStringsAsc, stableSortBy]
    · simp [normalizeRow, extractUnitNames, hempty, dedupFirst, dedupAux,
        sortStringsAsc, stableSortBy]
    · simp [normalizeRow, extractUnitNames, hempty, dedupFirst, dedupAux,
        sortStringsAsc, stableSortBy]
    · simp [normalizeRow, extractCapacityInfo, hempty]

/-- Witness for C8: with a JSON.parse that always throws, a fully
malformed row still normalizes, with empty lists in every derived field. -/
theorem normalization_absorbs_decode_failures_witness :
    parseJSON (fun _ => (none : Option Json)) (some "not json") = []
    ∧ (normalizeRow (fun _ => none)
        { areas_json := some "not json", production_units_json := some "not json",
          generation_units_json := some "not json", transmission_units_json := some "not json",
          publication_date := "2020-01-01", message_type := "1",
          unavailability_type := none, remarks := none }).area_names = [] := by
  refine ⟨?_, ?_⟩
  · exact (normalization_absorbs_decode_failures (fun _ => none) "not json" [] [] []
      { areas_json := none, production_units_json := none, generation_units_json := none,
        transmission_units_json := none, publication_date := "", message_type := "",
        unavailability_type := none, remarks := none }).1 rfl
  · exact ((normalization_absorbs_decode_failures (fun _ => none) "x" [] [] []
      { areas_json := some "not json", production_units_json := some "not json",
        generation_units_json := some "not json", transmission_units_json := some "not json",
        publication_date := "2020-01-01", message_type := "1",
        unavailability_type := none, remarks := none }).2.2.2 (fun _ => rfl)).1

/-- C2: classifyStatus applies its rules in order with first match
winning: sentinel 1 gives Planned and sentinel 2 gives Unplanned
regardless of remarks; otherwise a planned-keyword hit in the lower-cased
remarks gives Planned even when an unplanned keyword is also present, an
unplanned-keyword hit without a planned hit gives Unplanned, and no hit
gives Unknown; the concrete remark "emergency maintenance" classifies as
Planned, and every input receives exactly one of the three labels. -/
theorem classifyStatus_first_match_wins (ut : Option ℚ) (remarks : Option String) :
    (ut = some 1 → classifyStatus ut remarks = .Planned)
    ∧ (ut = some 2 → classifyStatus ut remarks = .Unplanned)
    ∧ (ut ≠ some 1 → ut ≠ some 2 →
        plannedKeywords.any (fun kw => jsIncludes (jsToLower (remarks.getD "")) kw) = true →
        classifyStatus ut remarks = .Planned)
    ∧ (ut ≠ some 1 → ut ≠ some 2 →
        plannedKeywords.any (fun kw => jsIncludes (jsToLower (remarks.getD "")) kw) = false →
        unplannedKeywords.any (fun kw => jsIncludes (jsToLower (remarks.getD "")) kw) = true →
        classifyStatus ut remarks = .Unplanned)
    ∧ (ut ≠ some 1 → ut ≠ some 2 →
        plannedKeywords.any (fun kw => jsIncludes (jsToLower (remarks.getD "")) kw) = false →
        unplannedKeywords.any (fun kw => jsIncludes (jsToLower (remarks.getD "")) kw) = false →
        classifyStatus ut remarks = .Unknown)
    ∧ classifyStatus none (some "emergency maintenance") = .Planned
    ∧ (classifyStatus ut remarks = .Planned ∨ classifyStatus ut remarks = .Unplanned
        ∨ classifyStatus ut remarks = .Unknown) := by
  refine ⟨?_, ?_, ?_, ?_, ?_, by decide, ?_⟩
  · intro h; simp [classifyStatus, h]
  · intro h
    have h1 : ut ≠ some 1 := by
      rw [h]; intro hc
      have : (2 : ℚ) = 1 := by injection hc
      norm_num at this
    simp [classifyStatus, h, h1]
  · intro h1 h2 h3
    simp [classifyStatus, h1, h2, h3]
  · intro h1 h2 h3 h4
    simp [classifyStatus, h1, h2, h3, h4]
  · intro h1 h2 h3 h4
    simp [classifyStatus, h1, h2, h3, h4]
  · simp only [classifyStatus]
    split_ifs <;> simp

/-- Witness for C2 at concrete inputs: each rule fires at a concrete
message. -/
theorem classifyStatus_first_match_wins_witness :
    classifyStatus (some 1) (some "unexpected fault") = .Planned
    ∧ classifyStatus (some 2) (some "planned maintenance") = .Unplanned
    ∧ classifyStatus none (some "Fault on line") = .Unplanned
    ∧ classifyStatus none (some "routine work") = .Unknown := by
  refine ⟨?_, ?_, ?_, ?_⟩
  · exact (classifyStatus_first_match_wins (some 1) (some "unexpected fault")).1 rfl
  · exact (classifyStatus_first_match_wins (some 2) (some "planned maintenance")).2.1 rfl
  · exact (classifyStatus_first_match_wins none
      (some "Fault on line")).2.2.2.1 (by decide) (by decide) (by decide) (by decide)
  · exact (classifyStatus_first_match_wins none
      (some "routine work")).2.2.2.2.1 (by decide) (by decide) (by decide) (by decide)

/-- Whether the cached dataset, if any, is outside its freshness window at
the given time (the negation of the cache-hit condition of loadData). -/
def cacheInvalid (now : ℤ) (st : CacheState) : Prop :=
  ∀ d t, st.cached = some (d, t) → ¬(now - t < CACHE_DURATION)

/-- C7 (amended): in the server.js coordinator a failed load rejects with
the error (the route answers 500, not an empty dataset), the failure does
not touch the cache, and a later request that can read the file succeeds
and repopulates the cache without any manual clearing. -/
theorem loadData_failure_surfaced_not_cached (jsonParse : String → Option Json)
    (now now2 : ℤ) (e : String) (rows : List Row) (st : CacheState)
    (h1 : cacheInvalid now st) (h2 : cacheInvalid now2 st) :
    (loadData jsonParse now (.error e) st).1 = .error e
    ∧ (loadData jsonParse now (.error e) st).2 = st
    ∧ messagesEndpoint jsonParse now (.error e) st
        = (.serverError "Failed to load messages", st)
    ∧ (loadData jsonParse now2 (.ok rows) ((loadData jsonParse now (.error e) st).2)).1
        = .ok (normalizeDataset jsonParse rows)
    ∧ (loadData jsonParse now2 (.ok rows) ((loadData jsonParse now (.error e) st).2)).2
        = ⟨some (normalizeDataset jsonParse rows, now2)⟩ := by
  obtain ⟨cached⟩ := st
  cases cached with
  | none => simp [loadData, messagesEndpoint]
  | some p =>
    obtain ⟨d, t⟩ := p
    have hfresh : ¬(now - t < CACHE_DURATION) := h1 d t rfl
    have hfresh2 : ¬(now2 - t < CACHE_DURATION) := h2 d t rfl
    simp [loadData, messagesEndpoint, hfresh, hfresh2]

/-- Witness for C7's amended claim: empty cache, a missing-file error on
the first request, the file restored before the second. -/
theorem loadData_failure_surfaced_not_cached_witness :
    (loadData (fun _ => (none : Option Json)) 0 (.error "ENOENT") ⟨none⟩).1 = .error "ENOENT"
    ∧ (loadData (fun _ => (none : Option Json)) 1 (.ok [])
        ((loadData (fun _ => none) 0 (.error "ENOENT") ⟨none⟩).2)).1 = .ok [] := by
  have h := loadData_failure_surfaced_not_cached (fun _ => none) 0 1 "ENOENT" [] ⟨none⟩
    (fun d t hc => by simp at hc) (fun d t hc => by simp at hc)
  exact ⟨h.1, h.2.2.2.1⟩

/-- C7 counterexample: the combined-prototype loader (loadCSVData,
src/unnamed/part_002) RESOLVES WITH AN EMPTY DATASET when the file is
missing — no error reaches the caller, refuting the claim as stated for
this cited loader. -/
theorem loadCSVData_missing_resolves_empty :
    loadCSVData (fun rows => rows) (FileState.missing : FileState (List Unit))
      = Except.ok [] := rfl

/-- C4 (amended): extractAreaNames collects candidates in the fixed order
areas, production, generation, transmission in/out; keeps them verbatim
(no uppercasing, no trimming, empties discarded by the truthiness guard),
and returns the de-duplicated candidates sorted ascending — so the result
is a defined, duplicate-free, lexicographically sorted list whose members
are exactly the candidates. -/
theorem extractAreaNames_sorted_dedup_verbatim (jsonParse : String → Option Json) (row : Row) :
    (extractAreaNames jsonParse row).Pairwise (fun a b => strLtB b a = false)
    ∧ (extractAreaNames jsonParse row).Nodup
    ∧ (∀ a, a ∈ extractAreaNames jsonParse row ↔ a ∈ areaCandidates jsonParse row) := by
  refine ⟨stableSortBy_pairwise strLtB_asymm strLtB_neg_trans _, ?_, ?_⟩
  · exact ((stableSortBy_perm _).nodup_iff).mpr (nodup_dedupFirst _)
  · intro a
    simp only [extractAreaNames, sortStringsAsc]
    rw [(stableSortBy_perm _).mem_iff, mem_dedupFirst]

/-- The per-unit time-period sum that extractCapacityMw accumulates. -/
def unitPeriodSum (unit : Json) : ℚ :=
  match unit.getField "timePeriods" with
  | some (.arr periods) => (periods.map periodAdd).sum
  | _ => 0

theorem capStep_eq (acc : ℚ) (unit : Json) : capStep acc unit = acc + unitPeriodSum unit := by
  cases ho : unit.getField "timePeriods" with
  | none => simp [capStep, unitPeriodSum, ho]
  | some tp =>
    cases tp with
    | arr periods => simp [capStep, unitPeriodSum, ho, foldl_add_eq]
    | null => simp [capStep, unitPeriodSum, ho]
    | bool b => simp [capStep, unitPeriodSum, ho]
    | num q => simp [capStep, unitPeriodSum, ho]
    | str s => simp [capStep, unitPeriodSum, ho]
    | obj fields => simp [capStep, unitPeriodSum, ho]

theorem capFold_eq_sum (units : List Json) (c : ℚ) :
    units.foldl capStep c = c + (units.map unitPeriodSum).sum := by
  induction units generalizing c with
  | nil => simp
  | cons u us ih => simp [capStep_eq, ih, add_assoc]

/-- C3 (amended): the extracted capacityAffectedMw equals the sum of
unavailableCapacity over ALL time-period entries of the PRODUCTION
sub-units only, rounded to one decimal, with a result of 0 when nothing
is derivable — generation sub-units are ignored entirely (changing them
never changes the result). -/
theorem extractCapacityMw_production_only (jsonParse : String → Option Json)
    (row : ProtoRow) (g : Option String) :
    extractCapacityMw jsonParse row
      = round1 (((safeJsonParseArray jsonParse row.production_units_json).map
          unitPeriodSum).sum)
    ∧ extractCapacityMw jsonParse { row with generation_units_json := g }
        = extractCapacityMw jsonParse row
    ∧ (safeJsonParseArray jsonParse row.production_units_json = [] →
        extractCapacityMw jsonParse row = 0) := by
  refine ⟨?_, rfl, ?_⟩
  · simp [extractCapacityMw, capFold_eq_sum]
  · intro h
    simp [extractCapacityMw, h, round1]

/-- Witness for C3's amended claim: a record with no production sub-units
extracts capacity 0, whatever its generation sub-units hold. -/
theorem extractCapacityMw_production_only_witness :
    extractCapacityMw (fun _ => (none : Option Json))
      { production_units_json := none, generation_units_json := some "G" } = 0 :=
  (extractCapacityMw_production_only (fun _ => none)
    { production_units_json := none, generation_units_json := some "G" } none).2.2 rfl

/-- A concrete JSON.parse table for the C3 counterexample: the string "G"
parses to one generation unit carrying a 50 MW unavailable time period. -/
def jsonParseC3 : String → Option Json := fun s =>
  if s = "G" then
    some (Json.arr [Json.obj
      [("timePeriods", Json.arr [Json.obj [("unavailableCapacity", Json.num 50)]])]])
  else none

/-- The concrete record of the C3 counterexample: no production units, one
generation unit with 50 MW unavailable. -/
def rowC3 : ProtoRow :=
  { production_units_json := none, generation_units_json := some "G" }

/-- C3 counterexample: a record whose only capacity lives on a generation
sub-unit extracts 0, while the claimed production-and-generation sum is
50 — the code ignores generation sub-units. -/
theorem extractCapacityMw_ignores_generation_units :
    extractCapacityMw jsonParseC3 rowC3 = 0
    ∧ claimCapacityAffectedMw jsonParseC3 rowC3 = 50
    ∧ extractCapacityMw jsonParseC3 rowC3 ≠ claimCapacityAffectedMw jsonParseC3 rowC3 := by
  have e0 : safeJsonParseArray jsonParseC3 rowC3.production_units_json = [] := rfl
  have e1 : safeJsonParseArray jsonParseC3 rowC3.generation_units_json
      = [Json.obj [("timePeriods", Json.arr [Json.obj [("unavailableCapacity", Json.num 50)]])]] :=
    rfl
  have e2 : (Json.obj [("timePeriods",
        Json.arr [Json.obj [("unavailableCapacity", Json.num 50)]])]).getField "timePeriods"
      = some (Json.arr [Json.obj [("unavailableCapacity", Json.num 50)]]) := rfl
  have e3 : periodAdd (Json.obj [("unavailableCapacity", Json.num 50)]) = 50 := rfl
  have hz : extractCapacityMw jsonParseC3 rowC3 = 0 := by
    simp only [extractCapacityMw, e0, List.foldl_nil]
    norm_num [round1]
  have hc : claimCapacityAffectedMw jsonParseC3 rowC3 = 50 := by
    simp only [claimCapacityAffectedMw, e0, e1, List.nil_append, List.map_cons, List.map_nil,
      e2, e3, List.sum_cons, List.sum_nil]
    norm_num [round1, round_eq]
  exact ⟨hz, hc, by rw [hz, hc]; norm_num⟩

/-- A concrete JSON.parse table for the C4 counterexample. -/
def jsonParseC4 : String → Option Json := fun s =>
  if s = "A" then some (Json.arr [Json.obj [("name", Json.str "b")]])
  else if s = "P" then some (Json.arr [Json.obj [("areaName", Json.str "A ")]])
  else none

/-- The concrete row of the C4 counterexample. -/
def rowC4 : Row :=
  { areas_json := some "A", production_units_json := some "P",
    generation_units_json := none, transmission_units_json := none,
    publication_date := "2020-01-01", message_type := "1",
    unavailability_type := none, remarks := none }

/-- C4 counterexample: on a row whose candidates are "b" (areas list) then
"A " (production unit), the code returns them verbatim and sorted
(["A ", "b"]), while the claimed uppercase-trim-collection-order
behaviour would return ["B", "A"]; the two functions differ. -/
theorem extractAreaNames_not_normalized_not_collection_order :
    extractAreaNames jsonParseC4 rowC4 = ["A ", "b"]
    ∧ claimExtractAreaNames jsonParseC4 rowC4 = ["B", "A"]
    ∧ extractAreaNames jsonParseC4 rowC4 ≠ claimExtractAreaNames jsonParseC4 rowC4 := by
  refine ⟨by decide, by decide, by decide⟩

theorem invariant_upsertWith {β : Type} (I : String × β → Prop) (k : String) (upd : β → β)
    (fresh : β) (l : List (String × β)) (hl : ∀ p ∈ l, I p)
    (hf : I (k, fresh)) (hu : ∀ k2 v, I (k2, v) → I (k2, upd v)) :
    ∀ p ∈ upsertWith k upd fresh l, I p := by
  induction l with
  | nil =>
    intro p hp
    simp only [upsertWith, List.mem_singleton] at hp
    exact hp ▸ hf
  | cons q rest ih =>
    obtain ⟨k2, v⟩ := q
    intro p hp
    by_cases h2 : k2 = k
    · subst h2
      simp only [upsertWith, if_pos, List.mem_cons] at hp
      rcases hp with hp | hp
      · exact hp ▸ hu k2 v (hl _ (List.mem_cons_self _ _))
      · exact hl p (List.mem_cons_of_mem _ hp)
    · simp only [upsertWith, h2, if_neg, not_false_iff, List.mem_cons] at hp
      rcases hp with hp | hp
      · exact hp ▸ hl _ (List.mem_cons_self _ _)
      · exact ih (fun q hq => hl q (List.mem_cons_of_mem _ hq)) p hp

/-- The key stored with a summary row is the string encoding of the row's
own grouping tuple. -/
def summaryKeyed (p : String × SummaryRow) : Prop :=
  p.1 = encodeKey p.2.area p.2.year p.2.messageType p.2.plannedStatus

theorem summaryStep_invariant (jsonParse : String → Option Json) (getYear : String → ℤ)
    (row : Row) (acc : List (String × SummaryRow)) (hacc : ∀ p ∈ acc, summaryKeyed p) :
    ∀ p ∈ summaryStep jsonParse getYear acc row, summaryKeyed p := by
  rw [summaryStep]
  generalize extractAreaNames jsonParse row = areas
  induction areas generalizing acc with
  | nil => exact hacc
  | cons a rest ih =>
    simp only [List.foldl_cons]
    apply ih
    apply invariant_upsertWith _ _ _ _ _ hacc
    · rfl
    · intro k2 v hv
      exact hv

theorem summaryStep_keys_nodup (jsonParse : String → Option Json) (getYear : String → ℤ)
    (row : Row) (acc : List (String × SummaryRow))
    (hacc : (acc.map Prod.fst).Nodup) :
    ((summaryStep jsonParse getYear acc row).map Prod.fst).Nodup := by
  rw [summaryStep]
  generalize extractAreaNames jsonParse row = areas
  induction areas generalizing acc with
  | nil => exact hacc
  | cons a rest ih =>
    simp only [List.foldl_cons]
    exact ih _ (nodup_keys_upsertWith _ _ _ _ hacc)

theorem buildSummary_invariant (jsonParse : String → Option Json) (getYear : String → ℤ)
    (rows : List Row) :
    (∀ p ∈ buildSummary jsonParse getYear rows, summaryKeyed p)
    ∧ ((buildSummary jsonParse getYear rows).map Prod.fst).Nodup := by
  rw [buildSummary]
  suffices h : ∀ acc, (∀ p ∈ acc, summaryKeyed p) → (acc.map Prod.fst).Nodup →
      (∀ p ∈ rows.foldl (summaryStep jsonParse getYear) acc, summaryKeyed p)
      ∧ ((rows.foldl (summaryStep jsonParse getYear) acc).map Prod.fst).Nodup by
    exact h [] (by simp) (by simp)
  induction rows with
  | nil => intro acc h1 h2; exact ⟨h1, h2⟩
  | cons r rest ih =>
    intro acc h1 h2
    exact ih _ (summaryStep_invariant _ _ _ _ h1) (summaryStep_keys_nodup _ _ _ _ h2)

/-- C9: every summary result of the outage aggregation has no two rows
with the same (area, year, outageTypeCode, classifiedStatus) tuple — the
grouping key tuple is unique across the rows, for every input row set
(and hence every filter combination, each of which only shrinks the input
list). -/
theorem summary_grouping_tuple_unique (jsonParse : String → Option Json)
    (getYear : String → ℤ) (rows : List Row) :
    ((buildSummary jsonParse getYear rows).map (fun p => p.2)).Pairwise
      (fun r s => ¬(r.area = s.area ∧ r.year = s.year ∧ r.messageType = s.messageType
        ∧ r.plannedStatus = s.plannedStatus)) := by
  obtain ⟨hinv, hnd⟩ := buildSummary_invariant jsonParse getYear rows
  have hpw : (buildSummary jsonParse getYear rows).Pairwise (fun p q => p.1 ≠ q.1) :=
    List.pairwise_map.mp hnd
  rw [List.pairwise_map]
  refine hpw.imp_of_mem ?_
  intro p q hp hq hne
  rintro ⟨h1, h2, h3, h4⟩
  apply hne
  rw [hinv p hp, hinv q hq, h1, h2, h3, h4]

/-- The per-area total of a summary array: the counts of all rows of that
area summed across all other dimensions. -/
def sumCountsAt (items : List SummaryRow) (a : String) : ℕ :=
  ((items.filter (fun r => decide (r.area = a))).map (fun r => r.count)).sum

theorem sumCountsAt_cons (r : SummaryRow) (items : List SummaryRow) (a : String) :
    sumCountsAt (r :: items) a
      = (if r.area = a then r.count else 0) + sumCountsAt items a := by
  by_cases h : r.area = a <;> simp [sumCountsAt, List.filter_cons, h]

theorem buildAreaTotals_foldl_char (items : List SummaryRow) :
    ∀ (acc : List (String × ℕ)) (a : String),
    assocFind (items.foldl
      (fun acc item => upsertWith item.area (fun c => c + item.count) item.count acc) acc) a
      = match assocFind acc a with
        | some c => some (c + sumCountsAt items a)
        | none =>
          if a ∈ items.map (fun r => r.area) then some (sumCountsAt items a) else none := by
  induction items with
  | nil =>
    intro acc a
    cases h : assocFind acc a <;> simp [h, sumCountsAt]
  | cons r rest ih =>
    intro acc a
    simp only [List.foldl_cons]
    rw [ih, assocFind_upsertWith]
    by_cases ha : a = r.area
    · subst ha
      rw [if_pos rfl]
      cases h : assocFind acc r.area with
      | some c =>
        simp [h, sumCountsAt_cons]
        exact Nat.add_assoc c r.count _
      | none =>
        simp [h, sumCountsAt_cons]
    · rw [if_neg ha]
      have hrs : sumCountsAt (r :: rest) a = sumCountsAt rest a := by
        rw [sumCountsAt_cons, if_neg (fun hc : r.area = a => ha hc.symm), Nat.zero_add]
      cases h : assocFind acc a with
      | some c => simp [h, hrs]
      | none =>
        simp only [h, hrs, List.map_cons, List.mem_cons]
        simp [ha]

theorem buildAreaTotals_char (items : List SummaryRow) (a : String) :
    assocFind (buildAreaTotals items) a
      = if a ∈ items.map (fun r => r.area) then some (sumCountsAt items a) else none := by
  rw [buildAreaTotals, buildAreaTotals_foldl_char items [] a]
  rfl

theorem buildAreaTotals_keys_nodup (items : List SummaryRow) :
    ((buildAreaTotals items).map Prod.fst).Nodup := by
  rw [buildAreaTotals]
  suffices h : ∀ acc : List (String × ℕ), (acc.map Prod.fst).Nodup →
      ((items.foldl
        (fun acc item => upsertWith item.area (fun c => c + item.count) item.count acc)
        acc).map Prod.fst).Nodup by
    exact h [] (by simp)
  induction items with
  | nil => intro acc h; exact h
  | cons r rest ih =>
    intro acc h
    exact ih _ (nodup_keys_upsertWith _ _ _ _ h)

/-- C6: topAreas sums per-area totals across all other dimensions of the
grouped result, the per-area totals list has one entry per distinct area,
the descending sort is by total and stable (ties keep the grouped map's
insertion order: within any tie class the sorted order is the totals
order), and the returned list is the first min(N, distinctAreaCount)
areas of that sort. -/
theorem topAreas_ranking (items : List SummaryRow) (topN : ℕ) :
    (topAreas items topN).length = min topN (buildAreaTotals items).length
    ∧ ((buildAreaTotals items).map Prod.fst).Nodup
    ∧ (∀ a, a ∈ (buildAreaTotals items).map Prod.fst ↔ a ∈ items.map (fun r => r.area))
    ∧ (∀ a c, (a, c) ∈ buildAreaTotals items → c = sumCountsAt items a)
    ∧ (stableSortBy (fun a b => decide (b.2 < a.2)) (buildAreaTotals items)).Pairwise
        (fun p q => q.2 ≤ p.2)
    ∧ (∀ n : ℕ, (stableSortBy (fun a b => decide (b.2 < a.2)) (buildAreaTotals items)).filter
          (fun p => decide (p.2 = n))
        = (buildAreaTotals items).filter (fun p => decide (p.2 = n)))
    ∧ topAreas items topN
        = ((stableSortBy (fun a b => decide (b.2 < a.2)) (buildAreaTotals items)).take
            topN).map Prod.fst := by
  refine ⟨?_, buildAreaTotals_keys_nodup items, ?_, ?_, ?_, ?_, rfl⟩
  · rw [topAreas, List.length_map, List.length_take,
      (stableSortBy_perm (buildAreaTotals items)).length_eq]
  · intro a
    rw [← assocFind_isSome_iff, buildAreaTotals_char]
    by_cases h : a ∈ items.map (fun r => r.area) <;> simp [h]
  · intro a c hm
    have hf : assocFind (buildAreaTotals items) a = some c :=
      assocFind_eq_some_of_mem _ _ _ (buildAreaTotals_keys_nodup items) hm
    rw [buildAreaTotals_char] at hf
    by_cases h : a ∈ items.map (fun r => r.area)
    · rw [if_pos h] at hf
      exact (Option.some.injEq .. ▸ hf).symm
    · rw [if_neg h] at hf
      exact absurd hf (by simp)
  · have hp := @stableSortBy_pairwise (String × ℕ)
      (fun a b => decide (b.2 < a.2))
      (fun a b h => by
        simp only [decide_eq_true_eq] at h
        simpa using not_lt_of_gt h)
      (fun a b c h1 h2 => by
        simp only [decide_eq_false_iff_not, not_lt] at h1 h2 ⊢
        exact h1.trans h2)
      (buildAreaTotals items)
    refine hp.imp ?_
    intro p q h
    simpa [not_lt] using h
  · intro n
    refine stableSortBy_filter _ ?_ _
    intro p q hp hq
    simp only [decide_eq_true_eq] at hp hq
    simp [hp, hq]

/-- The number of records qualifying for the large-event row of an area. -/
def countQ (records : List UmmRecord) (a : String) : ℕ :=
  (records.filter (qualifies a)).length

/-- The running maximum of the qualifying capacities of an area, seeded
with m (the loop seeds 0 on a fresh entry). -/
def maxFrom (m : ℚ) (records : List UmmRecord) (a : String) : ℚ :=
  (records.filter (qualifies a)).foldl
    (fun m r => if m < r.capacityAffectedMw then r.capacityAffectedMw else m) m

theorem maxCapOf_eq_maxFrom (records : List UmmRecord) (a : String) :
    maxCapOf records a = maxFrom 0 records a := rfl

theorem countQ_cons (r : UmmRecord) (rest : List UmmRecord) (a : String) :
    countQ (r :: rest) a = (if qualifies a r then 1 else 0) + countQ rest a := by
  by_cases h : qualifies a r <;> simp [countQ, List.filter_cons, h, Nat.add_comm]

theorem maxFrom_cons_pos (m : ℚ) (r : UmmRecord) (rest : List UmmRecord) (a : String)
    (h : qualifies a r = true) :
    maxFrom m (r :: rest) a
      = maxFrom (if m < r.capacityAffectedMw then r.capacityAffectedMw else m) rest a := by
  simp [maxFrom, List.filter_cons, h]

theorem maxFrom_cons_neg (m : ℚ) (r : UmmRecord) (rest : List UmmRecord) (a : String)
    (h : qualifies a r = false) :
    maxFrom m (r :: rest) a = maxFrom m rest a := by
  simp [maxFrom, List.filter_cons, h]

theorem largeEvents_foldl_char (records : List UmmRecord) :
    ∀ (acc : List (String × (ℕ × ℚ))) (a : String),
    assocFind (records.foldl largeStep acc) a
      = match assocFind acc a with
        | some s => some (s.1 + countQ records a, maxFrom s.2 records a)
        | none =>
          if countQ records a = 0 then none
          else some (countQ records a, maxFrom 0 records a) := by
  induction records with
  | nil =>
    intro acc a
    cases h : assocFind acc a <;> simp [h, countQ, maxFrom]
  | cons r rest ih =>
    intro acc a
    simp only [List.foldl_cons]
    by_cases hcap : (50 : ℚ) ≤ r.capacityAffectedMw
    · have hstep : largeStep acc r
          = upsertWith (areaOrUnknown r)
              (fun s => (s.1 + 1, if s.2 < r.capacityAffectedMw then r.capacityAffectedMw else s.2))
              (1, if 0 < r.capacityAffectedMw then r.capacityAffectedMw else 0) acc := by
        simp [largeStep, hcap]
      by_cases ha : a = areaOrUnknown r
      · have hq : qualifies a r = true := by
          simp [qualifies, ha, hcap]
        rw [hstep, ih, assocFind_upsertWith, ← ha, if_pos rfl]
        cases h : assocFind acc a with
        | some s =>
          simp only [h, countQ_cons, hq, if_true, maxFrom_cons_pos _ _ _ _ hq,
            Option.some.injEq, Prod.mk.injEq]
          refine ⟨Nat.add_assoc s.1 1 _, ?_⟩
          trivial
        | none =>
          simp only [h, countQ_cons, hq, if_true, maxFrom_cons_pos _ _ _ _ hq]
          rw [if_neg (show ¬(1 + countQ rest a = 0) by simp)]
      · have hq : qualifies a r = false := by
          simp only [qualifies, Bool.and_eq_false_iff, decide_eq_false_iff_not]
          exact Or.inl (fun hc => ha hc.symm)
        rw [hstep, ih, assocFind_upsertWith,
          if_neg (fun hc : a = areaOrUnknown r => ha hc)]
        rw [countQ_cons, hq]
        simp only [Bool.false_eq_true, if_false, Nat.zero_add]
        cases h : assocFind acc a with
        | some s => simp [h, maxFrom_cons_neg _ _ _ _ hq]
        | none => simp [h, maxFrom_cons_neg _ _ _ _ hq]
    · have hstep : largeStep acc r = acc := by
        simp [largeStep, hcap]
      have hq : ∀ b, qualifies b r = false := by
        intro b
        simp only [qualifies, Bool.and_eq_false_iff, decide_eq_false_iff_not]
        exact Or.inr hcap
      rw [hstep, ih]
      rw [countQ_cons, hq a]
      simp only [Bool.false_eq_true, if_false, Nat.zero_add]
      cases h : assocFind acc a with
      | some s => simp [h, maxFrom_cons_neg _ _ _ _ (hq a)]
      | none => simp [h, maxFrom_cons_neg _ _ _ _ (hq a)]

theorem largeEvents_char (records : List UmmRecord) (a : String) :
    assocFind (largeEvents records) a
      = if countQ records a = 0 then none
        else some (countQ records a, maxFrom 0 records a) := by
  rw [largeEvents, largeEvents_foldl_char records [] a]
  rfl

theorem largeEvents_keys_nodup (records : List UmmRecord) :
    ((largeEvents records).map Prod.fst).Nodup := by
  rw [largeEvents]
  suffices h : ∀ acc : List (String × (ℕ × ℚ)), (acc.map Prod.fst).Nodup →
      ((records.foldl largeStep acc).map Prod.fst).Nodup by
    exact h [] (by simp)
  induction records with
  | nil => intro acc h; exact h
  | cons r rest ih =>
    intro acc h
    apply ih
    by_cases hcap : (50 : ℚ) ≤ r.capacityAffectedMw
    · have hstep : largeStep acc r
          = upsertWith (areaOrUnknown r)
              (fun s => (s.1 + 1, if s.2 < r.capacityAffectedMw then r.capacityAffectedMw else s.2))
              (1, if 0 < r.capacityAffectedMw then r.capacityAffectedMw else 0) acc := by
        simp [largeStep, hcap]
      rw [hstep]
      exact nodup_keys_upsertWith _ _ _ _ h
    · have hstep : largeStep acc r = acc := by simp [largeStep, hcap]
      rw [hstep]
      exact h

theorem qmax_ge_init : ∀ (l : List ℚ) (m : ℚ),
    m ≤ l.foldl (fun m x => if m < x then x else m) m := by
  intro l
  induction l with
  | nil => intro m; simp
  | cons x xs ih =>
    intro m
    simp only [List.foldl_cons]
    by_cases h : m < x
    · exact le_of_lt (lt_of_lt_of_le h (by rw [if_pos h]; exact ih x))
    · rw [if_neg h]
      exact ih m

theorem qmax_ge_mem : ∀ (l : List ℚ) (m : ℚ) (x : ℚ), x ∈ l →
    x ≤ l.foldl (fun m x => if m < x then x else m) m := by
  intro l
  induction l with
  | nil => intro m x h; simp at h
  | cons y ys ih =>
    intro m x h
    simp only [List.foldl_cons]
    rcases List.mem_cons.mp h with rfl | h2
    · by_cases hm : m < x
      · rw [if_pos hm]
        exact qmax_ge_init ys x
      · rw [if_neg hm]
        exact le_trans (le_of_not_lt hm) (qmax_ge_init ys m)
    · exact ih _ x h2

theorem qmax_mem_or_init : ∀ (l : List ℚ) (m : ℚ),
    l.foldl (fun m x => if m < x then x else m) m = m
    ∨ l.foldl (fun m x => if m < x then x else m) m ∈ l := by
  intro l
  induction l with
  | nil => intro m; exact Or.inl rfl
  | cons x xs ih =>
    intro m
    simp only [List.foldl_cons]
    by_cases h : m < x
    · rw [if_pos h]
      rcases ih x with h2 | h2
      · exact Or.inr (by rw [h2]; exact List.mem_cons_self x xs)
      · exact Or.inr (List.mem_cons_of_mem x h2)
    · rw [if_neg h]
      rcases ih m with h2 | h2
      · exact Or.inl h2
      · exact Or.inr (List.mem_cons_of_mem x h2)

theorem maxFrom_eq_qmax (m : ℚ) (records : List UmmRecord) (a : String) :
    maxFrom m records a
      = ((records.filter (qualifies a)).map (fun r => r.capacityAffectedMw)).foldl
          (fun m x => if m < x then x else m) m := by
  rw [maxFrom, List.foldl_map]

/-- C5: the large-event table of buildUmmSummary uses the fixed 50 MW
capacity threshold, holds exactly one row per affected area (keys are
duplicate-free and present exactly for areas with a qualifying message),
each row carries the qualifying-event count and the single largest
qualifying capacity of its area, and the published rows are sorted
descending by that maximum; in particular records of 30 MW and 80 MW in
SE3 produce the single row (eventCount 1, maxCapacityMw 80). -/
theorem largeOutages_threshold_count_max_sorted (records : List UmmRecord) :
    ((largeEvents records).map Prod.fst).Nodup
    ∧ (∀ a, a ∈ (largeEvents records).map Prod.fst ↔ countQ records a ≠ 0)
    ∧ (∀ a c m, (a, (c, m)) ∈ largeEvents records →
        c = countQ records a ∧ m = maxCapOf records a)
    ∧ (∀ a, countQ records a ≠ 0 →
        maxCapOf records a
            ∈ (records.filter (qualifies a)).map (fun r => r.capacityAffectedMw)
        ∧ ∀ r ∈ records.filter (qualifies a), r.capacityAffectedMw ≤ maxCapOf records a)
    ∧ (largeOutages records).Pairwise (fun p q => q.2.2 ≤ p.2.2)
    ∧ ((largeOutages records).map Prod.fst).Nodup
    ∧ largeOutages [⟨"SE3", 30⟩, ⟨"SE3", 80⟩] = [("SE3", (1, 80))] := by
  have hval : ∀ a c m, (a, (c, m)) ∈ largeEvents records →
      c = countQ records a ∧ m = maxCapOf records a := by
    intro a c m hm
    have hf : assocFind (largeEvents records) a = some (c, m) :=
      assocFind_eq_some_of_mem _ _ _ (largeEvents_keys_nodup records) hm
    rw [largeEvents_char] at hf
    by_cases h : countQ records a = 0
    · rw [if_pos h] at hf
      exact absurd hf (by simp)
    · rw [if_neg h] at hf
      simp only [Option.some.injEq, Prod.mk.injEq] at hf
      exact ⟨hf.1.symm, by rw [maxCapOf_eq_maxFrom]; exact hf.2.symm⟩
  refine ⟨largeEvents_keys_nodup records, ?_, hval, ?_, ?_, ?_, ?_⟩
  · intro a
    rw [← assocFind_isSome_iff, largeEvents_char]
    by_cases h : countQ records a = 0 <;> simp [h]
  · intro a hne
    have hq50 : ∀ x ∈ (records.filter (qualifies a)).map (fun r => r.capacityAffectedMw),
        (50 : ℚ) ≤ x := by
      intro x hx
      rcases List.mem_map.mp hx with ⟨r, hr, rfl⟩
      have := (List.mem_filter.mp hr).2
      simp only [qualifies, Bool.and_eq_true, decide_eq_true_eq] at this
      exact this.2
    have hnonempty : (records.filter (qualifies a)) ≠ [] := by
      intro hc
      rw [countQ, hc] at hne
      simp at hne
    obtain ⟨r0, hr0⟩ := List.exists_mem_of_ne_nil _ hnonempty
    have hmax := maxCapOf_eq_maxFrom records a ▸ maxFrom_eq_qmax 0 records a
    constructor
    · rcases qmax_mem_or_init
          ((records.filter (qualifies a)).map (fun r => r.capacityAffectedMw)) 0 with h0 | h0
      · exfalso
        have h50 : (50 : ℚ) ≤ r0.capacityAffectedMw :=
          hq50 _ (List.mem_map_of_mem _ hr0)
        have hle := qmax_ge_mem
          ((records.filter (qualifies a)).map (fun r => r.capacityAffectedMw)) 0
          r0.capacityAffectedMw (List.mem_map_of_mem _ hr0)
        rw [h0] at hle
        linarith
      · rw [hmax]
        exact h0
    · intro r hr
      rw [hmax]
      exact qmax_ge_mem _ 0 r.capacityAffectedMw (List.mem_map_of_mem _ hr)
  · have hp := @stableSortBy_pairwise (String × (ℕ × ℚ))
      (fun a b => decide (b.2.2 < a.2.2))
      (fun a b h => by
        simp only [decide_eq_true_eq] at h
        simpa using not_lt_of_gt h)
      (fun a b c h1 h2 => by
        simp only [decide_eq_false_iff_not, not_lt] at h1 h2 ⊢
        exact h1.trans h2)
      (largeEvents records)
    refine hp.imp ?_
    intro p q h
    simpa [not_lt] using h
  · exact ((stableSortBy_perm _).map Prod.fst).nodup_iff.mpr (largeEvents_keys_nodup records)
  · have h1 : largeStep [] ⟨"SE3", 30⟩ = [] := by
      simp only [largeStep]
      rw [if_neg (by norm_num)]
    have h2 : largeStep [] ⟨"SE3", 80⟩ = [("SE3", (1, 80))] := by
      have hao : areaOrUnknown ⟨"SE3", (80 : ℚ)⟩ = "SE3" := by decide
      simp only [largeStep]
      rw [if_pos (by norm_num : (50 : ℚ) ≤ 80)]
      simp only [hao, upsertWith]
      norm_num
    have he : largeEvents [⟨"SE3", 30⟩, ⟨"SE3", 80⟩] = [("SE3", (1, 80))] := by
      simp only [largeEvents, List.foldl_cons, List.foldl_nil, h1, h2]
    rw [largeOutages, he]
    rfl

/-- Witness for C5: on the 30 MW / 80 MW SE3 records, the single table
row read back through the theorem carries eventCount 1 and maximum 80. -/
theorem largeOutages_threshold_count_max_sorted_witness :
    (1 : ℕ) = countQ [⟨"SE3", 30⟩, ⟨"SE3", 80⟩] "SE3"
    ∧ (80 : ℚ) = maxCapOf [⟨"SE3", 30⟩, ⟨"SE3", 80⟩] "SE3" :=
  (largeOutages_threshold_count_max_sorted [⟨"SE3", 30⟩, ⟨"SE3", 80⟩]).2.2.1
    "SE3" 1 80 (by decide)

/-- The concrete summary rows of the C6 witness. -/
def itemsC6 : List SummaryRow :=
  [{ area := "NO1", year := 2020, messageType := "1", plannedStatus := .Planned, count := 3 },
   { area := "NO2", year := 2020, messageType := "1", plannedStatus := .Planned, count := 5 },
   { area := "NO1", year := 2021, messageType := "2", plannedStatus := .Unknown, count := 4 }]

/-- Witness for C6: on three grouped rows over two areas, the ranking
length law holds at N = 2 and the NO1 entry carries the 3 + 4 = 7 total. -/
theorem topAreas_ranking_witness :
    (topAreas itemsC6 2).length = min 2 (buildAreaTotals itemsC6).length
    ∧ (7 : ℕ) = sumCountsAt itemsC6 "NO1" :=
  ⟨(topAreas_ranking itemsC6 2).1,
   (topAreas_ranking itemsC6 2).2.2.2.1 "NO1" 7 (by decide)⟩

theorem totalMWAt_cons (e : AreaEvent) (evs : List AreaEvent) (a : String) :
    totalMWAt (e :: evs) a = (if e.area = a then e.mw else 0) + totalMWAt evs a := by
  by_cases h : e.area = a <;> simp [totalMWAt, List.filter_cons, h]

theorem countAt_cons (e : AreaEvent) (evs : List AreaEvent) (a : String) :
    countAt (e :: evs) a = (if e.area = a then 1 else 0) + countAt evs a := by
  by_cases h : e.area = a <;> simp [countAt, List.filter_cons, h, Nat.add_comm]

theorem areaStats_foldl_char (events : List AreaEvent) :
    ∀ (acc : List (String × (ℚ × ℕ))) (a : String),
    assocFind (events.foldl (fun acc e =>
        upsertWith e.area (fun s => (s.1 + e.mw, s.2 + 1)) (e.mw, 1) acc) acc) a
      = match assocFind acc a with
        | some s => some (s.1 + totalMWAt events a, s.2 + countAt events a)
        | none =>
          if countAt events a = 0 then none
          else some (totalMWAt events a, countAt events a) := by
  induction events with
  | nil =>
    intro acc a
    cases h : assocFind acc a <;> simp [h, totalMWAt, countAt]
  | cons e rest ih =>
    intro acc a
    simp only [List.foldl_cons]
    rw [ih, assocFind_upsertWith]
    by_cases ha : a = e.area
    · rw [if_pos ha]
      have hea : e.area = a := ha.symm
      rw [totalMWAt_cons, countAt_cons, if_pos hea, if_pos hea, hea]
      cases h : assocFind acc a with
      | some s =>
        simp only [h, Option.some.injEq, Prod.mk.injEq]
        exact ⟨add_assoc s.1 e.mw _, Nat.add_assoc s.2 1 _⟩
      | none =>
        simp only [h]
        rw [if_neg (show ¬(1 + countAt rest a = 0) by simp)]
    · rw [if_neg ha]
      have hea : e.area ≠ a := fun hc => ha hc.symm
      rw [totalMWAt_cons, countAt_cons, if_neg hea, if_neg hea, zero_add, Nat.zero_add]

theorem areaStats_char (events : List AreaEvent) (a : String) :
    assocFind (areaStats events) a
      = if countAt events a = 0 then none
        else some (totalMWAt events a, countAt events a) := by
  rw [areaStats, areaStats_foldl_char events [] a]
  rfl

theorem sum_map_const_q {α : Type} (l : List α) (c : ℚ) :
    (l.map (fun _ => c)).sum = (l.length : ℚ) * c := by
  induction l with
  | nil => simp
  | cons x xs ih =>
    simp only [List.map_cons, List.sum_cons, ih, List.length_cons]
    push_cast
    ring

theorem filter_of_map {α β : Type} (f : α → β) (p : β → Bool) (l : List α) :
    (l.map f).filter p = (l.filter (fun x => p (f x))).map f := by
  induction l with
  | nil => simp
  | cons x xs ih =>
    by_cases h : p (f x) = true <;>
      simp [List.filter_cons, h, ih]

theorem filter_eq_singleton_of_nodup {l : List String} {a : String}
    (hnd : l.Nodup) (ha : a ∈ l) :
    l.filter (fun x => decide (x = a)) = [a] := by
  induction l with
  | nil => simp at ha
  | cons x xs ih =>
    simp only [List.nodup_cons] at hnd
    by_cases hx : x = a
    · subst hx
      have hnil : xs.filter (fun y => decide (y = x)) = [] := by
        rw [List.filter_eq_nil_iff]
        intro y hy
        simp only [decide_eq_true_eq]
        intro hc
        exact hnd.1 (hc ▸ hy)
      simp [List.filter_cons, hnil]
    · rcases List.mem_cons.mp ha with h1 | h2
      · exact absurd h1.symm hx
      · simp only [List.filter_cons, decide_eq_true_eq]
        rw [if_neg hx]
        exact ih hnd.2 h2

/-- C1: a sqlite message with N listed (distinct, trimmed) areas expands
into exactly N per-area events, each carrying the equal share
unavailable_mw / N; the shares of one message sum back to the full
unavailable_mw; and each listed area receives exactly one event (count 1)
with that share in its per-area capacity total and in the areaStats
aggregation row. -/
theorem areaEvents_distribute_capacity (row : SRow)
    (hne : splitAreas row.area_names ≠ [])
    (hnd : (splitAreas row.area_names).Nodup)
    (htrim : ∀ a ∈ splitAreas row.area_names, jsTrim a = a) :
    (rowEvents row).length = (splitAreas row.area_names).length
    ∧ (∀ e ∈ rowEvents row,
        e.mw = row.unavailable_mw.getD 0 / ((splitAreas row.area_names).length : ℚ))
    ∧ ((rowEvents row).map (fun e => e.mw)).sum = row.unavailable_mw.getD 0
    ∧ (∀ a ∈ splitAreas row.area_names,
        countAt (rowEvents row) a = 1
        ∧ totalMWAt (rowEvents row) a
            = row.unavailable_mw.getD 0 / ((splitAreas row.area_names).length : ℚ)
        ∧ assocFind (areaStats (rowEvents row)) a
            = some (row.unavailable_mw.getD 0 / ((splitAreas row.area_names).length : ℚ), 1)) := by
  have hlz : ¬((splitAreas row.area_names).length = 0) := by
    intro hc
    exact hne (List.length_eq_zero.mp hc)
  have hcast : ((splitAreas row.area_names).length : ℚ) ≠ 0 :=
    Nat.cast_ne_zero.mpr hlz
  have hre : rowEvents row = (splitAreas row.area_names).map (fun area =>
      { area := jsTrim area,
        mw := row.unavailable_mw.getD 0 / ((splitAreas row.area_names).length : ℚ),
        status := eventStatus row.unavailability_type,
        totalMessageMW := row.unavailable_mw.getD 0,
        affectedAreas := splitAreas row.area_names |>.length }) := by
    simp only [rowEvents]
    rw [if_neg hlz]
  have hmw : ∀ e ∈ rowEvents row,
      e.mw = row.unavailable_mw.getD 0 / ((splitAreas row.area_names).length : ℚ) := by
    intro e he
    rw [hre] at he
    rcases List.mem_map.mp he with ⟨x, hx, rfl⟩
    rfl
  have hfilter : ∀ a ∈ splitAreas row.area_names,
      (rowEvents row).filter (fun e => e.area = a)
        = [{ area := jsTrim a,
             mw := row.unavailable_mw.getD 0 / ((splitAreas row.area_names).length : ℚ),
             status := eventStatus row.unavailability_type,
             totalMessageMW := row.unavailable_mw.getD 0,
             affectedAreas := splitAreas row.area_names |>.length }] := by
    intro a ha
    rw [hre, filter_of_map]
    have hcongr : (splitAreas row.area_names).filter
        (fun x => decide (jsTrim x = a)) =
        (splitAreas row.area_names).filter (fun x => decide (x = a)) := by
      apply List.filter_congr
      intro x hx
      rw [htrim x hx]
    rw [hcongr, filter_eq_singleton_of_nodup hnd ha]
    rfl
  refine ⟨by rw [hre, List.length_map], hmw, ?_, ?_⟩
  · have hmm2 : ((rowEvents row).map (fun e => e.mw))
        = (splitAreas row.area_names).map (fun _ =>
            row.unavailable_mw.getD 0 / ((splitAreas row.area_names).length : ℚ)) := by
      rw [hre, List.map_map]
      rfl
    rw [hmm2, sum_map_const_q]
    field_simp
  · intro a ha
    have hc1 : countAt (rowEvents row) a = 1 := by
      rw [countAt, hfilter a ha]
      rfl
    have ht1 : totalMWAt (rowEvents row) a
        = row.unavailable_mw.getD 0 / ((splitAreas row.area_names).length : ℚ) := by
      rw [totalMWAt, hfilter a ha]
      simp
    refine ⟨hc1, ht1, ?_⟩
    rw [areaStats_char, hc1, ht1]
    rfl

/-- The concrete sqlite row of the C1 witness: two areas, 100 MW. -/
def rowC1 : SRow :=
  { area_names := some "NO1,NO2", unavailable_mw := some 100,
    unavailability_type := none, publication_date := "2020-01-01", remarks := none }

/-- Witness for C1: the 100 MW message over NO1 and NO2 contributes one
event and 50 MW to each of the two areas, and its shares sum to 100. -/
theorem areaEvents_distribute_capacity_witness :
    countAt (rowEvents rowC1) "NO1" = 1
    ∧ totalMWAt (rowEvents rowC1) "NO1" = 50
    ∧ countAt (rowEvents rowC1) "NO2" = 1
    ∧ totalMWAt (rowEvents rowC1) "NO2" = 50
    ∧ ((rowEvents rowC1).map (fun e => e.mw)).sum = 100 := by
  have h := areaEvents_distribute_capacity rowC1 (by decide) (by decide) (by decide)
  have hl : (splitAreas rowC1.area_names).length = 2 := by decide
  have hmw : rowC1.unavailable_mw.getD 0 = 100 := rfl
  have h1 := h.2.2.2 "NO1" (by decide)
  have h2 := h.2.2.2 "NO2" (by decide)
  refine ⟨h1.1, ?_, h2.1, ?_, ?_⟩
  · rw [h1.2.1, hl, hmw]
    norm_num
  · rw [h2.2.1, hl, hmw]
    norm_num
  · rw [h.2.2.1, hmw]

end UMM
